import Mathlib

/-!
Verification of the rustcraft chunk-streaming core

Shallow embedding of the chunk-streaming subsystem of the `rustcraft`
repository, together with proofs of the specification's claims about it.

The repository contains two parallel chunk-management variants:

* the bevy-based variant (`src/chunks/chunk_loader.rs` together with
  `src/world.rs`), embedded below in namespace `Chunks`;
* the specs-ecs-based variant (`src/world/ecs/chunk_loader.rs` and
  `src/world/ecs/camera.rs`), embedded below in namespace `Ecs`.

Floating-point arithmetic (`f32`) is idealised as exact arithmetic: over `ℚ`
where the embedded definitions must be executable, and over `ℝ` where the
source computes with square roots and trigonometric functions
(`normalize`, `tan`).  Every such idealisation is recorded in the doc
comment of the definition it concerns.

Parts of the repository referenced by the embedded files but absent from
the sources at hand (`chunks/chunk.rs` with `ChunkCoordinate::adjacent` and
the `ChunkOctree`, `world/ecs/bounds.rs` with `Bounds::vertices`, and the
`CHUNK_SIZE` constant) are modelled from the specification; each such
definition carries a doc comment starting with `Modelled from the spec:`.
-/

namespace Rustcraft

/-- Exact model of `Vector3<f32>` / `Vec3` (a 3-component vector),
generic over the scalar field so that the same definitions serve the
executable `ℚ` instances and the real-analytic `ℝ` instances. -/
structure Vec3 (K : Type) where
  x : K
  y : K
  z : K
deriving DecidableEq

namespace Vec3

variable {K : Type} [Field K]

/-- Componentwise addition, as on `Vector3<f32>`. -/
def add (a b : Vec3 K) : Vec3 K := ⟨a.x + b.x, a.y + b.y, a.z + b.z⟩

/-- Componentwise subtraction, as on `Vector3<f32>`. -/
def sub (a b : Vec3 K) : Vec3 K := ⟨a.x - b.x, a.y - b.y, a.z - b.z⟩

/-- Componentwise negation, as on `Vector3<f32>`. -/
def neg (a : Vec3 K) : Vec3 K := ⟨-a.x, -a.y, -a.z⟩

/-- Scalar multiplication `v * s`, as on `Vector3<f32>`. -/
def smul (s : K) (a : Vec3 K) : Vec3 K := ⟨s * a.x, s * a.y, s * a.z⟩

/-- The dot product `Vector3::dot`. -/
def dot (a b : Vec3 K) : K := a.x * b.x + a.y * b.y + a.z * b.z

/-- The cross product `Vector3::cross` (also written out componentwise in
`camera.rs`'s `calculate_view_matrix`). -/
def cross (a b : Vec3 K) : Vec3 K :=
  ⟨a.y * b.z - a.z * b.y, a.z * b.x - a.x * b.z, a.x * b.y - a.y * b.x⟩

instance : Add (Vec3 K) := ⟨add⟩

instance : Sub (Vec3 K) := ⟨sub⟩

instance : Neg (Vec3 K) := ⟨neg⟩

/-- The squared magnitude `v.dot(v)` of a vector. -/
def normSq (a : Vec3 K) : K := dot a a

/-- Embeds a rational vector into the real vectors (the identity idealised
`f32` computations factor through). -/
def toReal (a : Vec3 ℚ) : Vec3 ℝ := ⟨(a.x : ℝ), (a.y : ℝ), (a.z : ℝ)⟩

end Vec3

/-- Model of `cgmath`'s `InnerSpace::normalize`: `v * (1 / v.magnitude())` with
`magnitude = sqrt (v.dot v)`, idealised over `ℝ`. -/
noncomputable def normalize (v : Vec3 ℝ) : Vec3 ℝ :=
  Vec3.smul (1 / Real.sqrt (Vec3.dot v v)) v

namespace Ecs

/-- The `Plane` type from `world/ecs/camera.rs`: a point together with an outward
normal. -/
structure Plane (K : Type) where
  point : Vec3 K
  normal : Vec3 K

/-- The method `Plane::distance` from `world/ecs/camera.rs`:
`(pos - self.point).dot(self.normal)`. -/
def Plane.distance {K : Type} [Field K] (p : Plane K) (pos : Vec3 K) : K :=
  Vec3.dot (pos - p.point) p.normal

/-- Modelled from the spec: `Bounds` (`world/ecs/bounds.rs` is not among
the sources) is an axis-aligned box, represented by its two extreme
corners. -/
structure Bounds (K : Type) where
  min : Vec3 K
  max : Vec3 K

/-- Modelled from the spec: `Bounds::vertices` returns the box's 8 corner
vertices. -/
def Bounds.vertices {K : Type} (b : Bounds K) : List (Vec3 K) :=
  [⟨b.min.x, b.min.y, b.min.z⟩, ⟨b.min.x, b.min.y, b.max.z⟩,
   ⟨b.min.x, b.max.y, b.min.z⟩, ⟨b.min.x, b.max.y, b.max.z⟩,
   ⟨b.max.x, b.min.y, b.min.z⟩, ⟨b.max.x, b.min.y, b.max.z⟩,
   ⟨b.max.x, b.max.y, b.min.z⟩, ⟨b.max.x, b.max.y, b.max.z⟩]

/-- The `ViewFrustum` type from `world/ecs/camera.rs`: the array `planes: [Plane; 6]`,
modelled as the list of its elements in array order. -/
structure ViewFrustum (K : Type) where
  planes : List (Plane K)

variable {K : Type} [LinearOrderedField K]

/-- The inner vertex loop of `ViewFrustum::contains_box`: walks the vertex
list keeping the `v_in`/`v_out` counters, with the source's early break as
soon as both counters are positive.  `is_negative` on an exact scalar is
`· < 0`. -/
def countVerts (p : Plane K) : List (Vec3 K) → ℕ → ℕ → ℕ × ℕ
  | [], v_in, v_out => (v_in, v_out)
  | v :: vs, v_in, v_out =>
    let c := if p.distance v < 0 then (v_in, v_out + 1) else (v_in + 1, v_out)
    if 0 < c.2 ∧ 0 < c.1 then c else countVerts p vs c.1 c.2

/-- The outer plane loop of `ViewFrustum::contains_box`: returns `false` as
soon as a plane sees no vertex with non-negative distance (`v_in == 0`),
`true` when every plane passed. -/
def containsBoxAux (b : Bounds K) : List (Plane K) → Bool
  | [] => true
  | p :: ps => if (countVerts p b.vertices 0 0).1 = 0 then false else containsBoxAux b ps

/-- The method `ViewFrustum::contains_box` from `world/ecs/camera.rs`. -/
def ViewFrustum.contains_box (f : ViewFrustum K) (b : Bounds K) : Bool :=
  containsBoxAux b f.planes

/-- The constructor `ViewFrustum::new` from `world/ecs/camera.rs`, idealised over `ℝ`
(`tan` becomes `Real.tan`, `normalize` divides by the real square root of
the squared magnitude).  The six planes appear in the source's array
order: near, far, top, bottom, left, right. -/
noncomputable def ViewFrustum.new (pos dir up : Vec3 ℝ)
    (fov near far aspect_ratio : ℝ) : ViewFrustum ℝ :=
  let h_near := Real.tan (fov / 2) * near
  let w_near := h_near * aspect_ratio
  let z := -dir
  let x := normalize (Vec3.cross up z)
  let y := Vec3.cross z x
  let nc := pos - Vec3.smul near z
  let fc := pos - Vec3.smul far z
  { planes :=
      [⟨nc, -z⟩,
       ⟨fc, z⟩,
       ⟨nc + Vec3.smul h_near y, Vec3.cross (normalize ((nc + Vec3.smul h_near y) - pos)) x⟩,
       ⟨nc - Vec3.smul h_near y, Vec3.cross x (normalize ((nc - Vec3.smul h_near y) - pos))⟩,
       ⟨nc - Vec3.smul w_near x, Vec3.cross (normalize ((nc - Vec3.smul w_near x) - pos)) y⟩,
       ⟨nc + Vec3.smul w_near x, Vec3.cross y (normalize ((nc + Vec3.smul w_near x) - pos))⟩] }

/-- The `Vector2<i32>` chunk coordinates of the ecs variant. -/
structure Vector2 where
  x : ℤ
  y : ℤ
deriving DecidableEq

/-- Modelled from the spec: `CHUNK_SIZE`, the fixed chunk edge length, is
16 (the constant's defining module is not among the sources; the bevy
variant hard-codes 16 in its `chunk_world_pos`). -/
def CHUNK_SIZE : ℤ := 16

/-- The function `chunk_world_pos` from `world/ecs/chunk_loader.rs`:
`(chunk.x * CHUNK_SIZE, 0, chunk.y * CHUNK_SIZE)`, exact over `ℚ`. -/
def chunk_world_pos (chunk : Vector2) : Vec3 ℚ :=
  ⟨((chunk.x * CHUNK_SIZE : ℤ) : ℚ), 0, ((chunk.y * CHUNK_SIZE : ℤ) : ℚ)⟩

/-- The integer radicand of `chunk_distance`:
`(chunk2.x - chunk1.x).abs().pow(2) + (chunk2.y - chunk1.y).abs().pow(2)`. -/
def distSq (chunk1 chunk2 : Vector2) : ℤ :=
  |chunk2.x - chunk1.x| ^ 2 + |chunk2.y - chunk1.y| ^ 2

/-- The function `chunk_distance` from `world/ecs/chunk_loader.rs`: the Euclidean
distance between two chunk coordinates, idealised over `ℝ`. -/
noncomputable def chunk_distance (chunk1 chunk2 : Vector2) : ℝ :=
  Real.sqrt ((distSq chunk1 chunk2 : ℤ) : ℝ)

/-- The function `chunk_camera_direction` from `world/ecs/chunk_loader.rs`, idealised
over `ℝ`.  The result type `WithBot ℝ` models `f32` with its
`-f32::INFINITY` sentinel as `⊥` (the minimum of the `total_cmp` order on
the values this function produces). -/
noncomputable def chunk_camera_direction (camera_chunk : Vector2)
    (camera_forward : Vec3 ℝ) (chunk : Vector2) : WithBot ℝ :=
  let camera_dir := normalize
    (Vec3.toReal (chunk_world_pos camera_chunk) - Vec3.toReal (chunk_world_pos chunk))
  let dot := Vec3.dot camera_forward camera_dir
  let dist := chunk_distance camera_chunk chunk
  if dist = 0 then ⊥ else ↑(dot / dist)

/-- Executable exact-rational form of `chunk_camera_direction` for a
rational forward vector: writing `Δ` for the unnormalised direction and
`s` for the squared chunk distance, the source's
`forward.dot(Δ.normalize()) / dist` equals `forward.dot(Δ) / (16 * s)`
because `‖Δ‖ = 16 * sqrt s` and `dist = sqrt s`.
`chunk_camera_direction_eq_ratQ` proves this agreement. -/
def chunk_camera_directionQ (camera_chunk : Vector2) (camera_forward : Vec3 ℚ)
    (chunk : Vector2) : WithBot ℚ :=
  let d := chunk_world_pos camera_chunk - chunk_world_pos chunk
  let s := distSq camera_chunk chunk
  if s = 0 then ⊥ else ↑(Vec3.dot camera_forward d / (16 * (s : ℚ)))

/-- The ascending sort used for load prioritisation in `load_chunks`:
`chunks_to_load.sort_by(total_cmp of chunk_camera_direction)`.  Rust's
`sort_by` is a stable sort; it is modelled by Mathlib's (stable)
insertion sort over the exact rational scores. -/
def sortByCameraDirection (camera_chunk : Vector2) (camera_forward : Vec3 ℚ)
    (chunks : List Vector2) : List Vector2 :=
  chunks.insertionSort (fun c1 c2 =>
    chunk_camera_directionQ camera_chunk camera_forward c1
      ≤ chunk_camera_directionQ camera_chunk camera_forward c2)

end Ecs

namespace Chunks

/-- The type `ChunkCoordinate` from `chunks/chunk.rs`: a newtype over `I64Vec3`,
modelled as an integer 3-vector. -/
structure ChunkCoordinate where
  x : ℤ
  y : ℤ
  z : ℤ
deriving DecidableEq

/-- Modelled from the spec: `ChunkCoordinate::adjacent`
(`chunks/chunk.rs` is not among the sources) yields the 6 face-neighbour
coordinates. -/
def ChunkCoordinate.adjacent (c : ChunkCoordinate) : List ChunkCoordinate :=
  [⟨c.x + 1, c.y, c.z⟩, ⟨c.x - 1, c.y, c.z⟩,
   ⟨c.x, c.y + 1, c.z⟩, ⟨c.x, c.y - 1, c.z⟩,
   ⟨c.x, c.y, c.z + 1⟩, ⟨c.x, c.y, c.z - 1⟩]

/-- Modelled from the spec: `ChunkData` (`chunks/chunk.rs` is not among
the sources) is an immutable voxel payload; it is abstracted to an opaque
payload tag together with its observable emptiness `empty()`. -/
structure ChunkData where
  empty : Bool
  payload : ℕ
deriving DecidableEq

/-- Modelled from the spec: the mesher (`chunks/generate/generator.rs` is
not among the sources) is a pure function of one chunk's data and its six
neighbours' data; its output is modelled freely by recording exactly those
inputs. -/
structure Mesh where
  center : ChunkData
  neighbours : List (Option ChunkData)
deriving DecidableEq

/-- The `World` resource from `world.rs`.  The `ChunkOctree` chunk store
(`chunks/chunk.rs` is not among the sources) is modelled from the spec as
a map from coordinates to optional chunk data; `generator` together with
the seed's noise function (`chunks/generate/*` are not among the sources)
is modelled from the spec as a pure deterministic function `gen` from
coordinate to chunk data. -/
structure World where
  store : ChunkCoordinate → Option ChunkData
  gen : ChunkCoordinate → ChunkData

/-- The method `World::get_chunk_data`: a lookup in the chunk store. -/
def World.get_chunk_data (w : World) (c : ChunkCoordinate) : Option ChunkData :=
  w.store c

/-- The method `World::is_chunk_generated`: `get_chunk_data(coord).is_some()`. -/
def World.is_chunk_generated (w : World) (c : ChunkCoordinate) : Bool :=
  (w.store c).isSome

/-- The method `World::is_chunk_empty`:
`get_chunk_data(coord).map(|d| d.empty()).unwrap_or(false)`. -/
def World.is_chunk_empty (w : World) (c : ChunkCoordinate) : Bool :=
  ((w.store c).map ChunkData.empty).getD false

/-- The method `World::generate_chunk` from `world.rs`: skips coordinates that are
already generated, otherwise stores the generator's output for the
coordinate. -/
def World.generate_chunk (w : World) (c : ChunkCoordinate) : World :=
  if w.is_chunk_generated c then w
  else { w with store := fun c' => if c' = c then some (w.gen c) else w.store c' }

/-- The method `World::generate_chunks` from `world.rs`: generates each coordinate of
the list in order (the shared noise function is absorbed into `gen`). -/
def World.generate_chunks (w : World) (cs : List ChunkCoordinate) : World :=
  cs.foldl World.generate_chunk w

/-- The method `World::adjacent_chunk_data`: the six neighbours' store entries. -/
def World.adjacent_chunk_data (w : World) (c : ChunkCoordinate) :
    List (Option ChunkData) :=
  c.adjacent.map w.store

/-- The method `World::generate_chunk_mesh` from `world.rs`.  The source unwraps the
store lookup (`get_chunk_data(chunk_coord).unwrap()`); the embedding
returns `none` exactly when that unwrap would panic. -/
def World.generate_chunk_mesh (w : World) (c : ChunkCoordinate) : Option Mesh :=
  (w.store c).map fun d => ⟨d, w.adjacent_chunk_data c⟩

/-- Modelled from the spec: `ChunkOctree::chunk_centre` with the fixed
chunk edge length 16 — the affine map sending a chunk coordinate to the
world-space centre of its 16-sized cube. -/
def chunk_centre (c : ChunkCoordinate) : Vec3 ℚ :=
  ⟨((16 * c.x + 8 : ℤ) : ℚ), ((16 * c.y + 8 : ℤ) : ℚ), ((16 * c.z + 8 : ℤ) : ℚ)⟩

/-- The method `World::chunk_to_world`: `chunks.chunk_centre(chunk_coord)`. -/
def World.chunk_to_world (_w : World) (c : ChunkCoordinate) : Vec3 ℚ :=
  chunk_centre c

/-- The method `World::block_to_chunk_coordinate`: componentwise `i64` division of
the block coordinate by the chunk size (16); Rust `i64` division truncates
toward zero, which is `Int.tdiv`. -/
def World.block_to_chunk_coordinate (_w : World) (block : ChunkCoordinate) :
    ChunkCoordinate :=
  ⟨Int.tdiv block.x 16, Int.tdiv block.y 16, Int.tdiv block.z 16⟩

/-- Rust's `f32 as i64` cast (truncation toward zero) on an exact
rational. -/
def ratTrunc (q : ℚ) : ℤ :=
  Int.tdiv q.num (q.den : ℤ)

/-- The chunk containing the camera:
`world.block_to_chunk_coordinate(camera_pos as I64Vec3)`. -/
def cameraChunkOf (w : World) (camera_pos : Vec3 ℚ) : ChunkCoordinate :=
  w.block_to_chunk_coordinate ⟨ratTrunc camera_pos.x, ratTrunc camera_pos.y, ratTrunc camera_pos.z⟩

/-- Exact-arithmetic form of the BFS expansion guard of `all_chunks`:
`camera_forward.dot(direction) > 0.5` where `direction` is the normalised
vector `d / ‖d‖` from the camera chunk's centre to the neighbour chunk's
centre.  For `d ≠ 0`, `dot(f, d/‖d‖) > 1/2  ↔  0 < dot(f,d) ∧
normSq d < (2 * dot(f,d))²`; `dotGuard_iff_real` proves this agreement. -/
def dotGuard (camera_forward d : Vec3 ℚ) : Prop :=
  0 < Vec3.dot camera_forward d ∧ Vec3.normSq d < (2 * Vec3.dot camera_forward d) ^ 2

instance (f d : Vec3 ℚ) : Decidable (dotGuard f d) := by
  unfold dotGuard
  infer_instance

/-- The Chebyshev distance
`(neighbour.0 - camera_chunk.0).abs().max_element()` used as the stored
BFS ring index. -/
def chebDist (a b : ChunkCoordinate) : ℕ :=
  max (max (a.x - b.x).natAbs (a.y - b.y).natAbs) (a.z - b.z).natAbs

/-- One neighbour step of the BFS expansion in `all_chunks`: push the
neighbour (tagged with its Chebyshev ring) if it is unseen and the
direction guard passes, then mark it seen — exactly the loop body of
lines 210–221 of `chunks/chunk_loader.rs`. -/
def expandStep (camera_chunk : ChunkCoordinate) (camera_forward : Vec3 ℚ)
    (st : List (ChunkCoordinate × ℕ) × Finset ChunkCoordinate)
    (nb : ChunkCoordinate) : List (ChunkCoordinate × ℕ) × Finset ChunkCoordinate :=
  (if nb ∉ st.2 ∧ dotGuard camera_forward (chunk_centre nb - chunk_centre camera_chunk) then
      st.1 ++ [(nb, chebDist nb camera_chunk)]
    else st.1,
   insert nb st.2)

/-- The `while !stack.is_empty()` loop of `all_chunks`, with an explicit
fuel parameter: each fuel step is one loop iteration (pop the front entry,
emit it, mark it seen, and — unless its ring index has reached
`max_distance` — expand its six neighbours).  The function returns the
emitted list together with the leftover stack; `bfsFuel` fuel is proved
sufficient for the leftover stack to be empty, so the pair with empty
leftover IS the source loop's result. -/
def bfsLoop (camera_chunk : ChunkCoordinate) (camera_forward : Vec3 ℚ)
    (max_distance : ℕ) :
    ℕ → List (ChunkCoordinate × ℕ) → Finset ChunkCoordinate →
      List ChunkCoordinate → List ChunkCoordinate × List (ChunkCoordinate × ℕ)
  | 0, stack, _, acc => (acc, stack)
  | _ + 1, [], _, acc => (acc, [])
  | fuel + 1, (next, d) :: rest, seen, acc =>
    if max_distance ≤ d then
      bfsLoop camera_chunk camera_forward max_distance fuel rest
        (insert next seen) (acc ++ [next])
    else
      bfsLoop camera_chunk camera_forward max_distance fuel
        ((ChunkCoordinate.adjacent next).foldl
          (expandStep camera_chunk camera_forward) (rest, insert next seen)).1
        ((ChunkCoordinate.adjacent next).foldl
          (expandStep camera_chunk camera_forward) (rest, insert next seen)).2
        (acc ++ [next])

/-- Fuel sufficient to run the BFS of `all_chunks` to completion: twice
the size of the Chebyshev box of radius `max_distance` plus the initial
stack length (see `bfsLoop_stack_empty`). -/
def bfsFuel (max_distance : ℕ) : ℕ :=
  2 * (2 * max_distance + 1) ^ 3 + 2

/-- The function `all_chunks` from `chunks/chunk_loader.rs` (emitted list and leftover
stack): breadth-first expansion from the camera's chunk, bounded by
`max_distance`, expanding only to unseen neighbours whose direction from
the camera chunk passes the `dot > 0.5` guard. -/
def all_chunksFull (w : World) (camera_pos camera_forward : Vec3 ℚ)
    (max_distance : ℕ) : List ChunkCoordinate × List (ChunkCoordinate × ℕ) :=
  let camera_chunk := cameraChunkOf w camera_pos
  bfsLoop camera_chunk camera_forward max_distance (bfsFuel max_distance)
    [(camera_chunk, 0)] ∅ []

/-- The function `all_chunks` from `chunks/chunk_loader.rs`: the emitted candidate
list. -/
def all_chunks (w : World) (camera_pos camera_forward : Vec3 ℚ)
    (max_distance : ℕ) : List ChunkCoordinate :=
  (all_chunksFull w camera_pos camera_forward max_distance).1

/-- The `ChunkLoader` resource from `chunks/chunk_loader.rs`: the three queues and the
loaded map (the map's entity values are irrelevant to the claims; its key
list models the set of loaded coordinates). -/
structure ChunkLoader where
  render_distance : ℕ
  generate_queue : List ChunkCoordinate
  load_queue : List ChunkCoordinate
  unload_queue : List ChunkCoordinate
  loaded : List ChunkCoordinate

/-- Performs `push_front` of each element of `xs` in order onto queue `q`. -/
def pushFrontAll (xs q : List ChunkCoordinate) : List ChunkCoordinate :=
  xs.foldl (fun q c => c :: q) q

/-- Models `HashMap::insert` on the key set: appends the key when absent. -/
def insertKey (l : List ChunkCoordinate) (c : ChunkCoordinate) :
    List ChunkCoordinate :=
  if c ∈ l then l else l ++ [c]

/-- The body of `gather_chunks` from `chunks/chunk_loader.rs`, with the
candidate set (`all_chunks` in the source) abstracted as the `wanted`
list: front-push to `unload_queue` every loaded coordinate that is not
wanted and not already queued for unload; then front-push to
`generate_queue` at most 16 wanted coordinates that are not already
queued for generation or load, not loaded, and not known-empty. -/
def gather_chunks_with (wanted : List ChunkCoordinate) (w : World)
    (cl : ChunkLoader) : ChunkLoader :=
  let to_unload := cl.loaded.filter fun c => c ∉ wanted ∧ c ∉ cl.unload_queue
  let to_generate := (wanted.filter fun c =>
    c ∉ cl.generate_queue ∧ c ∉ cl.load_queue ∧ c ∉ cl.loaded
      ∧ ¬ w.is_chunk_empty c = true).take 16
  { cl with
    unload_queue := pushFrontAll to_unload cl.unload_queue
    generate_queue := pushFrontAll to_generate cl.generate_queue }

/-- The system `gather_chunks` from `chunks/chunk_loader.rs`: the candidate set is
`all_chunks` from the player position and camera forward direction. -/
def gather_chunks (camera_pos camera_forward : Vec3 ℚ) (w : World)
    (cl : ChunkLoader) : ChunkLoader :=
  gather_chunks_with (all_chunks w camera_pos camera_forward cl.render_distance) w cl

/-- The drain loop of `generate_chunks`: pop each coordinate from
`generate_queue`, generate it together with its six neighbours, and
front-push it onto `load_queue`. -/
def generateDrain (w : World) :
    List ChunkCoordinate → List ChunkCoordinate → World × List ChunkCoordinate
  | [], lq => (w, lq)
  | c :: rest, lq =>
    generateDrain (w.generate_chunks (c :: c.adjacent)) rest (c :: lq)

/-- The system `generate_chunks` from `chunks/chunk_loader.rs`: drains
`generate_queue`, generating each popped coordinate and its neighbours and
moving the popped coordinate to the front of `load_queue`. -/
def generate_chunks (w : World) (cl : ChunkLoader) : World × ChunkLoader :=
  let r := generateDrain w cl.generate_queue cl.load_queue
  (r.1, { cl with generate_queue := [], load_queue := r.2 })

/-- The drain loop of `load_chunks`: pop each coordinate from
`load_queue`, skip it if its data is known-empty, otherwise mesh it. -/
def loadDrain (w : World) :
    List ChunkCoordinate → List (ChunkCoordinate × Option Mesh)
  | [] => []
  | c :: rest =>
    if w.is_chunk_empty c then loadDrain w rest
    else (c, w.generate_chunk_mesh c) :: loadDrain w rest

/-- The system `load_chunks` from `chunks/chunk_loader.rs`: drains `load_queue`,
meshing every non-empty popped coordinate, then records each meshed
coordinate in the loaded map. -/
def load_chunks (w : World) (cl : ChunkLoader) : World × ChunkLoader :=
  let meshed := loadDrain w cl.load_queue
  (w, { cl with
    load_queue := []
    loaded := (meshed.map Prod.fst).foldl insertKey cl.loaded })

/-- The drain loop of `unload_chunks`: pop each coordinate from
`unload_queue` and remove it from the loaded map (despawning its entity)
when present. -/
def unloadDrain : List ChunkCoordinate → List ChunkCoordinate → List ChunkCoordinate
  | [], loaded => loaded
  | c :: rest, loaded => unloadDrain rest (loaded.erase c)

/-- The system `unload_chunks` from `chunks/chunk_loader.rs`. -/
def unload_chunks (cl : ChunkLoader) : ChunkLoader :=
  { cl with
    unload_queue := []
    loaded := unloadDrain cl.unload_queue cl.loaded }

/-- One pipeline tick with an abstract wanted-set: `gather_chunks`,
`generate_chunks`, `load_chunks` and `unload_chunks`, each run once in
that order. -/
def tick_with (wanted : List ChunkCoordinate) (w : World) (cl : ChunkLoader) :
    World × ChunkLoader :=
  let cl1 := gather_chunks_with wanted w cl
  let s2 := generate_chunks w cl1
  let s3 := load_chunks s2.1 s2.2
  (s3.1, unload_chunks s3.2)

/-- One pipeline tick with the wanted-set produced by `all_chunks` from
the viewer pose, as in the source's schedule. -/
def tick (camera_pos camera_forward : Vec3 ℚ) (w : World) (cl : ChunkLoader) :
    World × ChunkLoader :=
  tick_with (all_chunks w camera_pos camera_forward cl.render_distance) w cl

/-- A world with an empty chunk store (sample input for witnesses). -/
def emptyWorld : World :=
  ⟨fun _ => none, fun _ => ⟨false, 0⟩⟩

/-- A world whose store holds exactly the origin chunk (sample input for
witnesses). -/
def sampleWorld : World :=
  ⟨fun c => if c = ⟨0, 0, 0⟩ then some ⟨false, 7⟩ else none, fun _ => ⟨false, 0⟩⟩

/-- The finite Chebyshev box of radius `m` around `camera`: every
coordinate the BFS of `all_chunks` can ever see lies in it. -/
def chebBox (camera : ChunkCoordinate) (m : ℕ) : Finset ChunkCoordinate :=
  ((Finset.Icc (camera.x - m) (camera.x + m) ×ˢ Finset.Icc (camera.y - m) (camera.y + m))
      ×ˢ Finset.Icc (camera.z - m) (camera.z + m)).image
    fun p => ⟨p.1.1, p.1.2, p.2⟩

end Chunks

theorem vec3_sub_def {K : Type} [Field K] (a b : Vec3 K) :
    a - b = ⟨a.x - b.x, a.y - b.y, a.z - b.z⟩ := rfl

theorem vec3_neg_def {K : Type} [Field K] (a : Vec3 K) :
    -a = ⟨-a.x, -a.y, -a.z⟩ := rfl

namespace Ecs

variable {K : Type} [LinearOrderedField K]

theorem countVerts_fst_eq_zero (p : Plane K) (vs : List (Vec3 K)) :
    ∀ v_in v_out : ℕ,
      ((countVerts p vs v_in v_out).1 = 0 ↔ v_in = 0 ∧ ∀ v ∈ vs, p.distance v < 0) := by
  induction vs with
  | nil =>
    intro v_in v_out
    simp [countVerts]
  | cons v vs ih =>
    intro v_in v_out
    by_cases hv : p.distance v < 0
    · by_cases hin : 0 < v_in
      · simp [countVerts, hv, hin, Nat.pos_iff_ne_zero.mp hin]
      · have hin0 : v_in = 0 := Nat.eq_zero_of_not_pos hin
        subst hin0
        simp [countVerts, hv, ih, hv]
    · by_cases hout : 0 < v_out
      · simp [countVerts, hv, hout]
      · have hout0 : v_out = 0 := Nat.eq_zero_of_not_pos hout
        subst hout0
        simp [countVerts, hv, ih]

theorem containsBoxAux_eq_true (b : Bounds K) (ps : List (Plane K)) :
    containsBoxAux b ps = true ↔ ∀ p ∈ ps, ∃ v ∈ b.vertices, 0 ≤ p.distance v := by
  induction ps with
  | nil => simp [containsBoxAux]
  | cons p ps ih =>
    by_cases h : (countVerts p b.vertices 0 0).1 = 0
    · have h' := h
      rw [countVerts_fst_eq_zero] at h'
      have hred : containsBoxAux b (p :: ps) = false := by
        simp [containsBoxAux, h]
      rw [hred]
      simp only [Bool.false_eq_true, false_iff]
      intro hall
      obtain ⟨v, hv, hle⟩ := hall p (List.mem_cons_self p ps)
      exact absurd (h'.2 v hv) (not_lt.mpr hle)
    · have hred : containsBoxAux b (p :: ps) = containsBoxAux b ps := by
        simp [containsBoxAux, h]
      rw [hred, ih]
      rw [countVerts_fst_eq_zero] at h
      constructor
      · intro hall q hq
        rcases List.mem_cons.mp hq with rfl | hq'
        · by_contra hnone
          push_neg at hnone
          exact h ⟨rfl, fun v hv => hnone v hv⟩
        · exact hall q hq'
      · intro hall q hq
        exact hall q (List.mem_cons_of_mem p hq)

theorem new_planes_near_far (pos dir up : Vec3 ℝ) (fov near far aspect_ratio : ℝ) :
    ∃ rest, (ViewFrustum.new pos dir up fov near far aspect_ratio).planes =
      ⟨pos - Vec3.smul near (-dir), -(-dir)⟩ :: ⟨pos - Vec3.smul far (-dir), -dir⟩ :: rest :=
  ⟨_, rfl⟩

theorem near_plane_distance (pos dir v : Vec3 ℝ) (near : ℝ)
    (hdir : Vec3.dot dir dir = 1) :
    Plane.distance ⟨pos - Vec3.smul near (-dir), -(-dir)⟩ v
      = Vec3.dot (v - pos) dir - near := by
  simp only [Vec3.dot] at hdir
  simp only [Plane.distance, Vec3.dot, Vec3.smul, vec3_sub_def, vec3_neg_def]
  ring_nf
  linear_combination (-near) * hdir

theorem far_plane_distance (pos dir v : Vec3 ℝ) (far : ℝ)
    (hdir : Vec3.dot dir dir = 1) :
    Plane.distance ⟨pos - Vec3.smul far (-dir), -dir⟩ v
      = far - Vec3.dot (v - pos) dir := by
  simp only [Vec3.dot] at hdir
  simp only [Plane.distance, Vec3.dot, Vec3.smul, vec3_sub_def, vec3_neg_def]
  ring_nf
  linear_combination far * hdir

/-- A box whose corners all lie strictly on the viewer's side of the near
plane is rejected by `contains_box`. -/
theorem contains_box_false_of_before_near (pos dir up : Vec3 ℝ)
    (fov near far aspect_ratio : ℝ) (b : Bounds ℝ)
    (hdir : Vec3.dot dir dir = 1)
    (hb : ∀ v ∈ b.vertices, Vec3.dot (v - pos) dir < near) :
    (ViewFrustum.new pos dir up fov near far aspect_ratio).contains_box b = false := by
  by_contra h
  have htrue : (ViewFrustum.new pos dir up fov near far aspect_ratio).contains_box b = true := by
    revert h
    cases (ViewFrustum.new pos dir up fov near far aspect_ratio).contains_box b <;> simp
  rw [ViewFrustum.contains_box, containsBoxAux_eq_true] at htrue
  obtain ⟨rest, hplanes⟩ := new_planes_near_far pos dir up fov near far aspect_ratio
  have hmem : (⟨pos - Vec3.smul near (-dir), -(-dir)⟩ : Plane ℝ)
      ∈ (ViewFrustum.new pos dir up fov near far aspect_ratio).planes := by
    rw [hplanes]; exact List.mem_cons_self _ _
  obtain ⟨v, hv, hle⟩ := htrue _ hmem
  rw [near_plane_distance pos dir v near hdir] at hle
  exact absurd (hb v hv) (not_lt.mpr (by linarith))

/-- A box whose corners all lie strictly beyond the far plane is rejected
by `contains_box`. -/
theorem contains_box_false_of_beyond_far (pos dir up : Vec3 ℝ)
    (fov near far aspect_ratio : ℝ) (b : Bounds ℝ)
    (hdir : Vec3.dot dir dir = 1)
    (hb : ∀ v ∈ b.vertices, far < Vec3.dot (v - pos) dir) :
    (ViewFrustum.new pos dir up fov near far aspect_ratio).contains_box b = false := by
  by_contra h
  have htrue : (ViewFrustum.new pos dir up fov near far aspect_ratio).contains_box b = true := by
    revert h
    cases (ViewFrustum.new pos dir up fov near far aspect_ratio).contains_box b <;> simp
  rw [ViewFrustum.contains_box, containsBoxAux_eq_true] at htrue
  obtain ⟨rest, hplanes⟩ := new_planes_near_far pos dir up fov near far aspect_ratio
  have hmem : (⟨pos - Vec3.smul far (-dir), -dir⟩ : Plane ℝ)
      ∈ (ViewFrustum.new pos dir up fov near far aspect_ratio).planes := by
    rw [hplanes]
    exact List.mem_cons_of_mem _ (List.mem_cons_self _ _)
  obtain ⟨v, hv, hle⟩ := htrue _ hmem
  rw [far_plane_distance pos dir v far hdir] at hle
  exact absurd (hb v hv) (not_lt.mpr (by linarith))

/-- C3: `contains_box` classifies an axis-aligned box as visible iff for
every one of the frustum's planes at least one of the box's 8 corner
vertices has non-negative signed distance to the plane, and the signed
distance of a point to a plane is the dot product of (point minus
plane.point) with the plane's normal — for every frustum and every box. -/
theorem claim_C3_contains_box_iff :
    ∀ (f : ViewFrustum ℝ) (b : Bounds ℝ),
      (f.contains_box b = true ↔ ∀ p ∈ f.planes, ∃ v ∈ b.vertices, 0 ≤ p.distance v)
      ∧ ∀ (p : Plane ℝ) (pos : Vec3 ℝ),
          p.distance pos = Vec3.dot (pos - p.point) p.normal := by
  intro f b
  exact ⟨containsBoxAux_eq_true b f.planes, fun p pos => rfl⟩

/-- C2 counterexample: for the frustum built by `ViewFrustum::new` from
viewer position `(0,0,0)`, forward `(1,0,0)`, up `(0,1,0)`, fov `π/2`,
near `1`, far `100` and aspect ratio `1`, the zero-size box centered
exactly at the viewer position is classified NOT visible (every corner
lies at signed distance `-1` from the near plane), refuting the claim
that such a box is always classified visible. -/
theorem claim_C2_counterexample :
    (ViewFrustum.new ⟨0, 0, 0⟩ ⟨1, 0, 0⟩ ⟨0, 1, 0⟩ (Real.pi / 2) 1 100 1).contains_box
      ⟨⟨0, 0, 0⟩, ⟨0, 0, 0⟩⟩ = false := by
  apply contains_box_false_of_before_near
  · simp [Vec3.dot]
  · intro v hv
    simp only [Bounds.vertices, List.mem_cons, List.not_mem_nil, or_false] at hv
    have hveq : v = ⟨0, 0, 0⟩ := by
      rcases hv with h | h | h | h | h | h | h | h <;> exact h
    subst hveq
    simp [Vec3.dot, vec3_sub_def]

/-- C2 (amended): for every frustum constructed by `ViewFrustum::new` with
a unit forward vector, a box lying entirely beyond the far plane is never
classified visible, a box lying entirely on the viewer's side of the near
plane is never classified visible, and consequently — when the near
distance is positive — the zero-size box centered exactly at the viewer
position is classified NOT visible (it lies on the viewer's side of the
near plane). -/
theorem claim_C2_amended (pos dir up : Vec3 ℝ) (fov near far aspect_ratio : ℝ)
    (hdir : Vec3.dot dir dir = 1) :
    (∀ b : Bounds ℝ, (∀ v ∈ b.vertices, far < Vec3.dot (v - pos) dir) →
      (ViewFrustum.new pos dir up fov near far aspect_ratio).contains_box b = false)
    ∧ (∀ b : Bounds ℝ, (∀ v ∈ b.vertices, Vec3.dot (v - pos) dir < near) →
      (ViewFrustum.new pos dir up fov near far aspect_ratio).contains_box b = false)
    ∧ (0 < near →
      (ViewFrustum.new pos dir up fov near far aspect_ratio).contains_box ⟨pos, pos⟩ = false) := by
  refine ⟨fun b hb => contains_box_false_of_beyond_far pos dir up fov near far aspect_ratio b hdir hb,
    fun b hb => contains_box_false_of_before_near pos dir up fov near far aspect_ratio b hdir hb,
    fun hnear => contains_box_false_of_before_near pos dir up fov near far aspect_ratio _ hdir ?_⟩
  intro v hv
  simp only [Bounds.vertices, List.mem_cons, List.not_mem_nil, or_false] at hv
  have hveq : v = pos := by
    rcases hv with h | h | h | h | h | h | h | h <;> (subst h; rfl)
  rw [hveq]
  have hz : Vec3.dot (pos - pos) dir = 0 := by
    simp [Vec3.dot, vec3_sub_def]
  rw [hz]
  exact hnear

/-- Witness for C2 (amended) at a concrete frustum: a box entirely beyond
the far plane (corner x-coordinates 200 and 201, far distance 100) is
classified not visible. -/
theorem claim_C2_amended_witness :
    (ViewFrustum.new ⟨0, 0, 0⟩ ⟨1, 0, 0⟩ ⟨0, 1, 0⟩ (Real.pi / 2) 1 100 1).contains_box
      ⟨⟨200, 0, 0⟩, ⟨201, 1, 1⟩⟩ = false := by
  refine (claim_C2_amended ⟨0, 0, 0⟩ ⟨1, 0, 0⟩ ⟨0, 1, 0⟩ (Real.pi / 2) 1 100 1
    (by simp [Vec3.dot])).1 ⟨⟨200, 0, 0⟩, ⟨201, 1, 1⟩⟩ ?_
  intro v hv
  simp only [Bounds.vertices, List.mem_cons, List.not_mem_nil, or_false] at hv
  rcases hv with h | h | h | h | h | h | h | h <;>
    (subst h; simp [Vec3.dot, vec3_sub_def]; norm_num)
theorem distSq_nonneg (chunk1 chunk2 : Vector2) : 0 ≤ distSq chunk1 chunk2 := by
  have h1 : (0:ℤ) ≤ |chunk2.x - chunk1.x| ^ 2 := sq_nonneg _
  have h2 : (0:ℤ) ≤ |chunk2.y - chunk1.y| ^ 2 := sq_nonneg _
  unfold distSq
  linarith

theorem dot_toReal (a b : Vec3 ℚ) :
    Vec3.dot (Vec3.toReal a) (Vec3.toReal b) = ((Vec3.dot a b : ℚ) : ℝ) := by
  simp [Vec3.dot, Vec3.toReal]

theorem toReal_sub (a b : Vec3 ℚ) :
    Vec3.toReal a - Vec3.toReal b = Vec3.toReal (a - b) := by
  simp [Vec3.toReal, vec3_sub_def]

theorem normSq_dir_eq (camera_chunk chunk : Vector2) :
    Vec3.dot (chunk_world_pos camera_chunk - chunk_world_pos chunk)
        (chunk_world_pos camera_chunk - chunk_world_pos chunk)
      = 256 * ((distSq camera_chunk chunk : ℤ) : ℚ) := by
  simp only [chunk_world_pos, vec3_sub_def, Vec3.dot, distSq, CHUNK_SIZE]
  push_cast [sq_abs]
  ring

/-- The executable rational score agrees with the literal real-valued
`chunk_camera_direction` (for rational inputs). -/
theorem chunk_camera_direction_eq_ratQ (camera_chunk chunk : Vector2)
    (camera_forward : Vec3 ℚ) :
    chunk_camera_direction camera_chunk (Vec3.toReal camera_forward) chunk
      = WithBot.map (fun q : ℚ => (q : ℝ))
          (chunk_camera_directionQ camera_chunk camera_forward chunk) := by
  unfold chunk_camera_direction chunk_camera_directionQ
  by_cases hs : distSq camera_chunk chunk = 0
  · rw [if_pos hs]
    rw [if_pos]
    · simp
    · unfold chunk_distance
      rw [hs]
      simp
  · have hpos : (0:ℤ) < distSq camera_chunk chunk :=
      lt_of_le_of_ne (distSq_nonneg _ _) (Ne.symm hs)
    have hposR : (0:ℝ) < ((distSq camera_chunk chunk : ℤ) : ℝ) := by exact_mod_cast hpos
    have hdistpos : 0 < chunk_distance camera_chunk chunk := Real.sqrt_pos.mpr hposR
    rw [if_neg (ne_of_gt hdistpos), if_neg hs]
    rw [WithBot.map_coe]
    congr 1
    set s : ℤ := distSq camera_chunk chunk with hs_def
    set dq : Vec3 ℚ := chunk_world_pos camera_chunk - chunk_world_pos chunk with hd_def
    have hnorm : Vec3.dot (Vec3.toReal dq) (Vec3.toReal dq) = 256 * ((s:ℤ):ℝ) := by
      rw [dot_toReal]
      rw [hd_def, hs_def, normSq_dir_eq]
      push_cast
      ring
    have hsqrt : Real.sqrt (Vec3.dot (Vec3.toReal dq) (Vec3.toReal dq))
        = 16 * Real.sqrt ((s:ℤ):ℝ) := by
      rw [hnorm, show (256:ℝ) * ((s:ℤ):ℝ) = 16 ^ 2 * ((s:ℤ):ℝ) by norm_num,
        Real.sqrt_mul (by positivity), Real.sqrt_sq (by norm_num)]
    have hdot : Vec3.dot (Vec3.toReal camera_forward)
        (normalize (Vec3.toReal dq))
          = (1 / (16 * Real.sqrt ((s:ℤ):ℝ))) * ((Vec3.dot camera_forward dq : ℚ) : ℝ) := by
      unfold normalize
      rw [hsqrt]
      simp only [Vec3.dot, Vec3.smul, Vec3.toReal]
      push_cast
      ring
    rw [toReal_sub, hdot]
    unfold chunk_distance
    rw [← hs_def]
    have hmul : Real.sqrt ((s:ℤ):ℝ) * Real.sqrt ((s:ℤ):ℝ) = ((s:ℤ):ℝ) :=
      Real.mul_self_sqrt (le_of_lt hposR)
    have hcast : (((Vec3.dot camera_forward dq / (16 * ((s:ℤ):ℚ))) : ℚ) : ℝ)
        = ((Vec3.dot camera_forward dq : ℚ) : ℝ) / (16 * ((s:ℤ):ℝ)) := by
      push_cast
      ring
    rw [hcast, show (16:ℝ) * ((s:ℤ):ℝ)
        = (16 * Real.sqrt ((s:ℤ):ℝ)) * Real.sqrt ((s:ℤ):ℝ) by rw [mul_assoc, hmul],
      div_mul_eq_div_div]
    ring

/-- C7: with the camera at chunk (0,0) facing +x, sorting the candidate
chunks (0,0), (1,0), (1,1), (-1,0), (5,0), (-5,5) by ascending
`chunk_camera_direction` score places (0,0) and (1,0) strictly before
(-1,0) and (-5,5). -/
theorem claim_C7_sorting_scenario :
    ((sortByCameraDirection ⟨0,0⟩ ⟨1,0,0⟩
        [⟨-5,5⟩, ⟨-1,0⟩, ⟨0,0⟩, ⟨1,0⟩, ⟨1,1⟩, ⟨5,0⟩]).indexOf ⟨0,0⟩
      < (sortByCameraDirection ⟨0,0⟩ ⟨1,0,0⟩
        [⟨-5,5⟩, ⟨-1,0⟩, ⟨0,0⟩, ⟨1,0⟩, ⟨1,1⟩, ⟨5,0⟩]).indexOf ⟨-1,0⟩)
    ∧ ((sortByCameraDirection ⟨0,0⟩ ⟨1,0,0⟩
        [⟨-5,5⟩, ⟨-1,0⟩, ⟨0,0⟩, ⟨1,0⟩, ⟨1,1⟩, ⟨5,0⟩]).indexOf ⟨0,0⟩
      < (sortByCameraDirection ⟨0,0⟩ ⟨1,0,0⟩
        [⟨-5,5⟩, ⟨-1,0⟩, ⟨0,0⟩, ⟨1,0⟩, ⟨1,1⟩, ⟨5,0⟩]).indexOf ⟨-5,5⟩)
    ∧ ((sortByCameraDirection ⟨0,0⟩ ⟨1,0,0⟩
        [⟨-5,5⟩, ⟨-1,0⟩, ⟨0,0⟩, ⟨1,0⟩, ⟨1,1⟩, ⟨5,0⟩]).indexOf ⟨1,0⟩
      < (sortByCameraDirection ⟨0,0⟩ ⟨1,0,0⟩
        [⟨-5,5⟩, ⟨-1,0⟩, ⟨0,0⟩, ⟨1,0⟩, ⟨1,1⟩, ⟨5,0⟩]).indexOf ⟨-1,0⟩)
    ∧ ((sortByCameraDirection ⟨0,0⟩ ⟨1,0,0⟩
        [⟨-5,5⟩, ⟨-1,0⟩, ⟨0,0⟩, ⟨1,0⟩, ⟨1,1⟩, ⟨5,0⟩]).indexOf ⟨1,0⟩
      < (sortByCameraDirection ⟨0,0⟩ ⟨1,0,0⟩
        [⟨-5,5⟩, ⟨-1,0⟩, ⟨0,0⟩, ⟨1,0⟩, ⟨1,1⟩, ⟨5,0⟩]).indexOf ⟨-5,5⟩) := by
  have hsort : sortByCameraDirection ⟨0,0⟩ ⟨1,0,0⟩
      [⟨-5,5⟩, ⟨-1,0⟩, ⟨0,0⟩, ⟨1,0⟩, ⟨1,1⟩, ⟨5,0⟩]
      = [⟨0,0⟩, ⟨1,0⟩, ⟨1,1⟩, ⟨5,0⟩, ⟨-5,5⟩, ⟨-1,0⟩] := by
    norm_num [sortByCameraDirection, List.insertionSort, List.orderedInsert,
      chunk_camera_directionQ, chunk_world_pos, distSq, CHUNK_SIZE, Vec3.dot,
      vec3_sub_def, WithBot.coe_le_coe, WithBot.not_coe_le_bot, bot_le]
  rw [hsort]
  refine ⟨?_, ?_, ?_, ?_⟩ <;> decide

/-- C8: `chunk_distance` is the Euclidean distance on chunk coordinates
(`distance((0,0),(3,4)) = 5`, `distance((0,0),(0,0)) = 0`), and
`chunk_camera_direction` never divides by zero: when the chunk equals the
camera chunk it returns the sentinel minimal score `⊥` (modelling
`-f32::INFINITY`) instead of computing the direction/distance ratio. -/
theorem claim_C8_distance_and_zero_guard :
    chunk_distance ⟨0,0⟩ ⟨3,4⟩ = 5
    ∧ chunk_distance ⟨0,0⟩ ⟨0,0⟩ = 0
    ∧ ∀ (camera_chunk chunk : Vector2) (camera_forward : Vec3 ℝ),
        chunk = camera_chunk →
        chunk_camera_direction camera_chunk camera_forward chunk = ⊥ := by
  refine ⟨?_, ?_, ?_⟩
  · unfold chunk_distance
    rw [show ((distSq ⟨0,0⟩ ⟨3,4⟩ : ℤ) : ℝ) = 5 ^ 2 by norm_num [distSq]]
    exact Real.sqrt_sq (by norm_num)
  · unfold chunk_distance
    rw [show ((distSq ⟨0,0⟩ ⟨0,0⟩ : ℤ) : ℝ) = 0 by norm_num [distSq]]
    exact Real.sqrt_zero
  · intro camera_chunk chunk camera_forward heq
    subst heq
    unfold chunk_camera_direction
    rw [if_pos]
    unfold chunk_distance
    rw [show ((distSq chunk chunk : ℤ) : ℝ) = 0 by norm_num [distSq]]
    exact Real.sqrt_zero

/-- Witness for C8: at camera chunk (2,3) and the chunk (2,3) itself, the
score is the sentinel `⊥`. -/
theorem claim_C8_witness :
    chunk_camera_direction ⟨2,3⟩ ⟨1,0,0⟩ ⟨2,3⟩ = ⊥ :=
  claim_C8_distance_and_zero_guard.2.2 ⟨2,3⟩ ⟨2,3⟩ ⟨1,0,0⟩ rfl

end Ecs

namespace Chunks

theorem pushFrontAll_eq (xs : List ChunkCoordinate) :
    ∀ q, pushFrontAll xs q = xs.reverse ++ q := by
  induction xs with
  | nil => intro q; simp [pushFrontAll]
  | cons c rest ih =>
    intro q
    show pushFrontAll rest (c :: q) = (c :: rest).reverse ++ q
    rw [ih (c :: q)]
    simp

/-- C6: calling `World::generate_chunk` on a coordinate that is already
generated (present in the chunk store) is a no-op: the stored data for
that coordinate and for every other coordinate is unchanged, for every
store state, coordinate and generator/noise function. -/
theorem claim_C6_generate_idempotent (w : World) (c : ChunkCoordinate)
    (h : w.is_chunk_generated c = true) :
    ∀ c', (w.generate_chunk c).store c' = w.store c' := by
  intro c'
  unfold World.generate_chunk
  rw [if_pos h]

/-- Witness for C6: on a world whose store holds the origin chunk,
regenerating the origin leaves both the origin's entry and another
coordinate's entry unchanged. -/
theorem claim_C6_witness :
    (sampleWorld.generate_chunk ⟨0, 0, 0⟩).store ⟨0, 0, 0⟩ = sampleWorld.store ⟨0, 0, 0⟩
    ∧ (sampleWorld.generate_chunk ⟨0, 0, 0⟩).store ⟨1, 2, 3⟩ = sampleWorld.store ⟨1, 2, 3⟩ :=
  ⟨claim_C6_generate_idempotent sampleWorld ⟨0, 0, 0⟩ (by decide) ⟨0, 0, 0⟩,
   claim_C6_generate_idempotent sampleWorld ⟨0, 0, 0⟩ (by decide) ⟨1, 2, 3⟩⟩

/-- C5: in one run of the generate decision of `gather_chunks`, at most 16
coordinates are newly enqueued to `generate_queue` (in front of the
existing entries, which are untouched), and every newly enqueued
coordinate is wanted, not already queued for generation or load, not
loaded, and not known-empty in the store — for every pipeline state and
wanted set. -/
theorem claim_C5_generate_admission (wanted : List ChunkCoordinate) (w : World)
    (cl : ChunkLoader) :
    ∃ new, (gather_chunks_with wanted w cl).generate_queue = new ++ cl.generate_queue
      ∧ new.length ≤ 16
      ∧ ∀ c ∈ new, c ∈ wanted ∧ c ∉ cl.generate_queue ∧ c ∉ cl.load_queue
          ∧ c ∉ cl.loaded ∧ w.is_chunk_empty c = false := by
  refine ⟨((wanted.filter fun c =>
      c ∉ cl.generate_queue ∧ c ∉ cl.load_queue ∧ c ∉ cl.loaded
        ∧ ¬ w.is_chunk_empty c = true).take 16).reverse, ?_, ?_, ?_⟩
  · show pushFrontAll _ _ = _
    rw [pushFrontAll_eq]
  · rw [List.length_reverse]
    exact le_trans (List.length_take_le 16 _) (le_refl _)
  · intro c hc
    rw [List.mem_reverse] at hc
    have hc' := List.mem_of_mem_take hc
    rw [List.mem_filter] at hc'
    obtain ⟨hmem, hprop⟩ := hc'
    simp only [decide_eq_true_eq] at hprop
    exact ⟨hmem, hprop.1, hprop.2.1, hprop.2.2.1,
      by
        have := hprop.2.2.2
        revert this
        cases w.is_chunk_empty c <;> simp⟩

/-- C4: at the end of any pipeline tick (`gather_chunks`,
`generate_chunks`, `load_chunks`, `unload_chunks` each run once, in that
order), no coordinate appears in more than one of `generate_queue`,
`load_queue`, `unload_queue` — for every pipeline state and every
wanted-set.  (In fact each drain stage empties its queue, so all three
queues are empty at the end of a tick.) -/
theorem claim_C4_queue_exclusivity (wanted : List ChunkCoordinate) (w : World)
    (cl : ChunkLoader) :
    ((tick_with wanted w cl).2.generate_queue).Disjoint
        ((tick_with wanted w cl).2.load_queue)
    ∧ ((tick_with wanted w cl).2.generate_queue).Disjoint
        ((tick_with wanted w cl).2.unload_queue)
    ∧ ((tick_with wanted w cl).2.load_queue).Disjoint
        ((tick_with wanted w cl).2.unload_queue) := by
  have hgen : (tick_with wanted w cl).2.generate_queue = [] := rfl
  have hload : (tick_with wanted w cl).2.load_queue = [] := rfl
  have hunload : (tick_with wanted w cl).2.unload_queue = [] := rfl
  rw [hgen, hload, hunload]
  exact ⟨List.disjoint_nil_left _, List.disjoint_nil_left _, List.disjoint_nil_left _⟩

theorem generate_chunk_mono (w : World) (c c' : ChunkCoordinate)
    (h : (w.store c).isSome = true) :
    ((w.generate_chunk c').store c).isSome = true := by
  unfold World.generate_chunk
  by_cases hg : w.is_chunk_generated c' = true
  · rw [if_pos hg]; exact h
  · rw [if_neg hg]
    by_cases hc : c = c'
    · subst hc; simp
    · simpa [hc] using h

theorem generate_chunks_mono (cs : List ChunkCoordinate) :
    ∀ (w : World) (c : ChunkCoordinate), (w.store c).isSome = true →
      ((w.generate_chunks cs).store c).isSome = true := by
  induction cs with
  | nil => intro w c h; exact h
  | cons c' rest ih =>
    intro w c h
    exact ih (w.generate_chunk c') c (generate_chunk_mono w c c' h)

theorem generate_chunk_self (w : World) (c : ChunkCoordinate) :
    ((w.generate_chunk c).store c).isSome = true := by
  unfold World.generate_chunk
  by_cases hg : w.is_chunk_generated c = true
  · rw [if_pos hg]
    unfold World.is_chunk_generated at hg
    exact hg
  · rw [if_neg hg]
    simp

theorem generate_chunks_head (w : World) (c : ChunkCoordinate)
    (cs : List ChunkCoordinate) :
    ((w.generate_chunks (c :: cs)).store c).isSome = true := by
  show ((World.generate_chunks (w.generate_chunk c) cs).store c).isSome = true
  exact generate_chunks_mono cs _ c (generate_chunk_self w c)

theorem generateDrain_load_queue_generated (gq : List ChunkCoordinate) :
    ∀ (w : World) (lq : List ChunkCoordinate),
      (∀ c ∈ lq, (w.store c).isSome = true) →
      ∀ c ∈ (generateDrain w gq lq).2, ((generateDrain w gq lq).1.store c).isSome = true := by
  induction gq with
  | nil => intro w lq h c hc; exact h c hc
  | cons c0 rest ih =>
    intro w lq h c hc
    refine ih (w.generate_chunks (c0 :: c0.adjacent)) (c0 :: lq) ?_ c hc
    intro c' hc'
    rcases List.mem_cons.mp hc' with rfl | hmem
    · exact generate_chunks_head w c' c'.adjacent
    · exact generate_chunks_mono _ w c' (h c' hmem)

theorem loadDrain_meshes_present (w : World) (lq : List ChunkCoordinate)
    (h : ∀ c ∈ lq, (w.store c).isSome = true) :
    ∀ p ∈ loadDrain w lq, p.2.isSome = true := by
  induction lq with
  | nil => intro p hp; simp [loadDrain] at hp
  | cons c rest ih =>
    intro p hp
    unfold loadDrain at hp
    by_cases hemp : w.is_chunk_empty c = true
    · rw [if_pos hemp] at hp
      exact ih (fun c' hc' => h c' (List.mem_cons_of_mem c hc')) p hp
    · rw [if_neg hemp] at hp
      rcases List.mem_cons.mp hp with rfl | hmem
      · show (w.generate_chunk_mesh c).isSome = true
        unfold World.generate_chunk_mesh
        have hpres := h c (List.mem_cons_self c rest)
        simp only [Option.isSome_map']
        exact hpres
      · exact ih (fun c' hc' => h c' (List.mem_cons_of_mem c hc')) p hmem

/-- C10: every coordinate placed on `load_queue` by the `generate_chunks`
drain has its chunk data present in the store of the resulting world
(assuming the same held of the coordinates already on `load_queue`, as is
the case for coordinates that entered through the pipeline, the queue
having started empty); consequently during `load_chunks` every produced
mesh lookup is `some`, i.e. the `unwrap` inside
`World::generate_chunk_mesh` is unreachable for coordinates that entered
`load_queue` through the pipeline. -/
theorem claim_C10_mesh_unwrap_safe :
    (∀ (w : World) (gq lq : List ChunkCoordinate),
        (∀ c ∈ lq, (w.store c).isSome = true) →
        ∀ c ∈ (generateDrain w gq lq).2,
          ((generateDrain w gq lq).1.store c).isSome = true)
    ∧ (∀ (w : World) (lq : List ChunkCoordinate),
        (∀ c ∈ lq, (w.store c).isSome = true) →
        ∀ p ∈ loadDrain w lq, p.2.isSome = true) :=
  ⟨fun w gq lq h => generateDrain_load_queue_generated gq w lq h,
   fun w lq h => loadDrain_meshes_present w lq h⟩

/-- Witness for C10: draining a generate queue holding the origin from an
empty world and an empty load queue leaves the origin on the load queue
with its data present, and the subsequent load drain produces a `some`
mesh for it. -/
theorem claim_C10_witness :
    (((generateDrain emptyWorld [⟨0, 0, 0⟩] []).1.store ⟨0, 0, 0⟩).isSome = true)
    ∧ ∀ p ∈ loadDrain (generateDrain emptyWorld [⟨0, 0, 0⟩] []).1
        (generateDrain emptyWorld [⟨0, 0, 0⟩] []).2, p.2.isSome = true := by
  constructor
  · exact claim_C10_mesh_unwrap_safe.1 emptyWorld [⟨0, 0, 0⟩] [] (by simp) ⟨0, 0, 0⟩
      (by decide)
  · refine claim_C10_mesh_unwrap_safe.2 (generateDrain emptyWorld [⟨0, 0, 0⟩] []).1
      (generateDrain emptyWorld [⟨0, 0, 0⟩] []).2 ?_
    intro c hc
    exact claim_C10_mesh_unwrap_safe.1 emptyWorld [⟨0, 0, 0⟩] [] (by simp) c hc

theorem mem_chebBox {c camera : ChunkCoordinate} {m : ℕ} :
    c ∈ chebBox camera m ↔ chebDist c camera ≤ m := by
  obtain ⟨cx, cy, cz⟩ := c
  unfold chebBox chebDist
  simp only [Finset.mem_image, Finset.mem_product, Finset.mem_Icc, Prod.exists,
    ChunkCoordinate.mk.injEq]
  constructor
  · rintro ⟨a, b, d, ⟨⟨⟨ha1, ha2⟩, hb1, hb2⟩, hd1, hd2⟩, rfl, rfl, rfl⟩
    omega
  · intro h
    exact ⟨cx, cy, cz, by omega, rfl, rfl, rfl⟩

theorem card_chebBox (camera : ChunkCoordinate) (m : ℕ) :
    (chebBox camera m).card ≤ (2 * m + 1) ^ 3 := by
  refine le_trans (Finset.card_image_le) ?_
  rw [Finset.card_product, Finset.card_product, Int.card_Icc, Int.card_Icc, Int.card_Icc]
  have h : ∀ a : ℤ, ((a + m + 1 - (a - m)).toNat) = 2 * m + 1 := by
    intro a; omega
  rw [h, h, h]
  ring_nf
  omega

theorem adjacent_ne (c nb : ChunkCoordinate) (h : nb ∈ c.adjacent) : nb ≠ c := by
  obtain ⟨cx, cy, cz⟩ := c
  simp only [ChunkCoordinate.adjacent, List.mem_cons, List.not_mem_nil, or_false] at h
  rcases h with h | h | h | h | h | h <;>
    (subst h; simp only [ne_eq, ChunkCoordinate.mk.injEq, not_and]; omega)

theorem adjacent_nodup (c : ChunkCoordinate) : c.adjacent.Nodup := by
  obtain ⟨cx, cy, cz⟩ := c
  simp only [ChunkCoordinate.adjacent, List.nodup_cons, List.mem_cons,
    List.mem_singleton, List.not_mem_nil, or_false, ChunkCoordinate.mk.injEq,
    not_or, List.nodup_singleton, List.nodup_nil, and_true, true_and,
    not_false_iff]
  refine ⟨⟨?_, ?_, ?_, ?_, ?_⟩, ⟨?_, ?_, ?_, ?_⟩, ⟨?_, ?_, ?_⟩, ⟨?_, ?_⟩, ?_⟩ <;> omega

theorem adjacent_cheb_le (next nb camera : ChunkCoordinate)
    (h : nb ∈ next.adjacent) :
    chebDist nb camera ≤ chebDist next camera + 1 := by
  obtain ⟨nx, ny, nz⟩ := next
  simp only [ChunkCoordinate.adjacent, List.mem_cons, List.not_mem_nil, or_false] at h
  unfold chebDist
  rcases h with h | h | h | h | h | h <;> (subst h; simp only; omega)

theorem chebDist_self (c : ChunkCoordinate) : chebDist c c = 0 := by
  unfold chebDist
  omega

theorem expandStep_pos (camera : ChunkCoordinate) (f : Vec3 ℚ)
    (st : List (ChunkCoordinate × ℕ) × Finset ChunkCoordinate)
    (nb : ChunkCoordinate)
    (h : nb ∉ st.2 ∧ dotGuard f (chunk_centre nb - chunk_centre camera)) :
    expandStep camera f st nb = (st.1 ++ [(nb, chebDist nb camera)], insert nb st.2) := by
  unfold expandStep
  rw [if_pos h]

theorem expandStep_neg (camera : ChunkCoordinate) (f : Vec3 ℚ)
    (st : List (ChunkCoordinate × ℕ) × Finset ChunkCoordinate)
    (nb : ChunkCoordinate)
    (h : ¬(nb ∉ st.2 ∧ dotGuard f (chunk_centre nb - chunk_centre camera))) :
    expandStep camera f st nb = (st.1, insert nb st.2) := by
  unfold expandStep
  rw [if_neg h]

theorem expand_foldl_stack_mono (camera : ChunkCoordinate) (f : Vec3 ℚ)
    (nbs : List ChunkCoordinate) :
    ∀ (st : List (ChunkCoordinate × ℕ) × Finset ChunkCoordinate)
      (p : ChunkCoordinate × ℕ), p ∈ st.1 →
      p ∈ (nbs.foldl (expandStep camera f) st).1 := by
  induction nbs with
  | nil => intro st p hp; exact hp
  | cons nb rest ih =>
    intro st p hp
    refine ih (expandStep camera f st nb) p ?_
    unfold expandStep
    by_cases hc : nb ∉ st.2 ∧ dotGuard f (chunk_centre nb - chunk_centre camera)
    · simp only [hc, if_pos]
      exact List.mem_append_left _ hp
    · simp only [hc, if_neg, if_false]
      exact hp

theorem expand_foldl_new (camera : ChunkCoordinate) (f : Vec3 ℚ)
    (nbs : List ChunkCoordinate) :
    ∀ (st : List (ChunkCoordinate × ℕ) × Finset ChunkCoordinate)
      (p : ChunkCoordinate × ℕ), p ∈ (nbs.foldl (expandStep camera f) st).1 →
      p ∈ st.1 ∨ (p.1 ∈ nbs ∧ p.2 = chebDist p.1 camera ∧ p.1 ∉ st.2
        ∧ dotGuard f (chunk_centre p.1 - chunk_centre camera)) := by
  induction nbs with
  | nil => intro st p hp; exact Or.inl hp
  | cons nb rest ih =>
    intro st p hp
    rcases ih (expandStep camera f st nb) p hp with hmem | ⟨hin, hcheb, hns, hg⟩
    · unfold expandStep at hmem
      by_cases hc : nb ∉ st.2 ∧ dotGuard f (chunk_centre nb - chunk_centre camera)
      · simp only [hc, if_pos] at hmem
        rcases List.mem_append.mp hmem with h | h
        · exact Or.inl h
        · simp only [List.mem_singleton] at h
          subst h
          exact Or.inr ⟨List.mem_cons_self _ _, rfl, hc.1, hc.2⟩
      · simp only [hc, if_neg, if_false] at hmem
        exact Or.inl hmem
    · unfold expandStep at hns
      simp only [Finset.mem_insert, not_or] at hns
      exact Or.inr ⟨List.mem_cons_of_mem _ hin, hcheb, hns.2, hg⟩

theorem expand_foldl_seen_mono (camera : ChunkCoordinate) (f : Vec3 ℚ)
    (nbs : List ChunkCoordinate) :
    ∀ (st : List (ChunkCoordinate × ℕ) × Finset ChunkCoordinate),
      st.2 ⊆ (nbs.foldl (expandStep camera f) st).2 := by
  induction nbs with
  | nil => intro st; exact Finset.Subset.refl _
  | cons nb rest ih =>
    intro st
    refine Finset.Subset.trans ?_ (ih (expandStep camera f st nb))
    unfold expandStep
    exact Finset.subset_insert _ _

theorem expand_foldl_seen_bound (camera : ChunkCoordinate) (f : Vec3 ℚ)
    (nbs : List ChunkCoordinate) :
    ∀ (st : List (ChunkCoordinate × ℕ) × Finset ChunkCoordinate)
      (c : ChunkCoordinate), c ∈ (nbs.foldl (expandStep camera f) st).2 →
      c ∈ st.2 ∨ c ∈ nbs := by
  induction nbs with
  | nil => intro st c hc; exact Or.inl hc
  | cons nb rest ih =>
    intro st c hc
    rcases ih (expandStep camera f st nb) c hc with h | h
    · unfold expandStep at h
      rcases Finset.mem_insert.mp h with rfl | h'
      · exact Or.inr (List.mem_cons_self _ _)
      · exact Or.inl h'
    · exact Or.inr (List.mem_cons_of_mem _ h)

theorem expand_foldl_card (camera : ChunkCoordinate) (f : Vec3 ℚ)
    (nbs : List ChunkCoordinate) :
    ∀ (st : List (ChunkCoordinate × ℕ) × Finset ChunkCoordinate),
      (nbs.foldl (expandStep camera f) st).1.length + st.2.card
        ≤ st.1.length + (nbs.foldl (expandStep camera f) st).2.card := by
  induction nbs with
  | nil => intro st; simp only [List.foldl_nil]; omega
  | cons nb rest ih =>
    intro st
    have hstep := ih (expandStep camera f st nb)
    simp only [List.foldl_cons]
    by_cases hc : nb ∉ st.2 ∧ dotGuard f (chunk_centre nb - chunk_centre camera)
    · rw [expandStep_pos camera f st nb hc] at hstep ⊢
      have h2 : (insert nb st.2).card = st.2.card + 1 :=
        Finset.card_insert_of_not_mem hc.1
      dsimp only at hstep ⊢
      simp only [List.length_append, List.length_singleton] at hstep
      rw [h2] at hstep
      omega
    · rw [expandStep_neg camera f st nb hc] at hstep ⊢
      have h2 : st.2.card ≤ (insert nb st.2).card :=
        Finset.card_le_card (Finset.subset_insert _ _)
      dsimp only at hstep ⊢
      omega

theorem expand_foldl_nodup (camera : ChunkCoordinate) (f : Vec3 ℚ)
    (nbs : List ChunkCoordinate) :
    ∀ (st : List (ChunkCoordinate × ℕ) × Finset ChunkCoordinate),
      (st.1.map Prod.fst).Nodup → (∀ p ∈ st.1, p.1 ∈ st.2) →
      ((nbs.foldl (expandStep camera f) st).1.map Prod.fst).Nodup
        ∧ ∀ p ∈ (nbs.foldl (expandStep camera f) st).1,
            p.1 ∈ (nbs.foldl (expandStep camera f) st).2 := by
  induction nbs with
  | nil => intro st h1 h2; exact ⟨h1, h2⟩
  | cons nb rest ih =>
    intro st h1 h2
    simp only [List.foldl_cons]
    refine ih (expandStep camera f st nb) ?_ ?_
    · by_cases hc : nb ∉ st.2 ∧ dotGuard f (chunk_centre nb - chunk_centre camera)
      · rw [expandStep_pos camera f st nb hc]
        simp only [List.map_append, List.map_cons, List.map_nil]
        rw [List.nodup_append]
        refine ⟨h1, List.nodup_singleton _, ?_⟩
        intro a ha hb
        simp only [List.mem_singleton] at hb
        subst hb
        rcases List.mem_map.mp ha with ⟨p, hp, hpa⟩
        exact hc.1 (hpa ▸ h2 p hp)
      · rw [expandStep_neg camera f st nb hc]
        exact h1
    · by_cases hc : nb ∉ st.2 ∧ dotGuard f (chunk_centre nb - chunk_centre camera)
      · rw [expandStep_pos camera f st nb hc]
        intro p hp
        rcases List.mem_append.mp hp with h | h
        · exact Finset.mem_insert_of_mem (h2 p h)
        · simp only [List.mem_singleton] at h
          subst h
          exact Finset.mem_insert_self _ _
      · rw [expandStep_neg camera f st nb hc]
        intro p hp
        exact Finset.mem_insert_of_mem (h2 p hp)

theorem expand_foldl_pushes (camera : ChunkCoordinate) (f : Vec3 ℚ)
    (nbs : List ChunkCoordinate) :
    ∀ (st : List (ChunkCoordinate × ℕ) × Finset ChunkCoordinate)
      (nb : ChunkCoordinate), nbs.Nodup → nb ∈ nbs → nb ∉ st.2 →
      dotGuard f (chunk_centre nb - chunk_centre camera) →
      (nb, chebDist nb camera) ∈ (nbs.foldl (expandStep camera f) st).1 := by
  induction nbs with
  | nil => intro st nb _ h; exact absurd h (List.not_mem_nil nb)
  | cons nb0 rest ih =>
    intro st nb hnd hmem hns hg
    rcases List.mem_cons.mp hmem with rfl | hmem'
    · refine expand_foldl_stack_mono camera f rest (expandStep camera f st nb) _ ?_
      unfold expandStep
      simp only [hns, hg, and_self, if_pos, not_false_iff, true_and]
      exact List.mem_append_right _ (List.mem_singleton_self _)
    · refine ih (expandStep camera f st nb0) nb (List.Nodup.of_cons hnd) hmem' ?_ hg
      unfold expandStep
      simp only [Finset.mem_insert, not_or]
      refine ⟨?_, hns⟩
      intro heq
      subst heq
      exact (List.nodup_cons.mp hnd).1 hmem'

/-- With fuel at least twice the unseen portion of the Chebyshev box plus
the stack length, the BFS loop of `all_chunks` runs the stack down to
empty: the loop terminates. -/
theorem bfsLoop_stack_empty (camera : ChunkCoordinate) (f : Vec3 ℚ) (m : ℕ) :
    ∀ (fuel : ℕ) (stack : List (ChunkCoordinate × ℕ)) (seen : Finset ChunkCoordinate)
      (acc : List ChunkCoordinate),
      (∀ p ∈ stack, p.2 = chebDist p.1 camera ∧ chebDist p.1 camera ≤ m) →
      seen ⊆ chebBox camera m →
      2 * ((chebBox camera m).card - seen.card) + stack.length ≤ fuel →
      (bfsLoop camera f m fuel stack seen acc).2 = [] := by
  intro fuel
  induction fuel with
  | zero =>
    intro stack seen acc _ _ hfuel
    cases stack with
    | nil => rfl
    | cons p rest =>
      simp only [List.length_cons] at hfuel
      omega
  | succ fuel ih =>
    intro stack seen acc hstack hseen hfuel
    cases stack with
    | nil => rfl
    | cons hd rest =>
      obtain ⟨next, d⟩ := hd
      have hnext := hstack (next, d) (List.mem_cons_self _ _)
      dsimp only at hnext
      have hnextbox : next ∈ chebBox camera m := mem_chebBox.mpr hnext.2
      have hseen' : insert next seen ⊆ chebBox camera m := by
        intro c hc
        rcases Finset.mem_insert.mp hc with rfl | hc'
        · exact hnextbox
        · exact hseen hc'
      have hcard1 : seen.card ≤ (insert next seen).card :=
        Finset.card_le_card (Finset.subset_insert _ _)
      have hcard2 : (insert next seen).card ≤ (chebBox camera m).card :=
        Finset.card_le_card hseen'
      simp only [bfsLoop]
      by_cases hmd : m ≤ d
      · rw [if_pos hmd]
        refine ih rest (insert next seen) (acc ++ [next])
          (fun p hp => hstack p (List.mem_cons_of_mem _ hp)) hseen' ?_
        simp only [List.length_cons] at hfuel
        omega
      · rw [if_neg hmd]
        have hstackok : ∀ p ∈ ((ChunkCoordinate.adjacent next).foldl
            (expandStep camera f) (rest, insert next seen)).1,
            p.2 = chebDist p.1 camera ∧ chebDist p.1 camera ≤ m := by
          intro p hp
          rcases expand_foldl_new camera f _ (rest, insert next seen) p hp with
            hmem | ⟨hin, hcheb, _, _⟩
          · exact hstack p (List.mem_cons_of_mem _ hmem)
          · have hle := adjacent_cheb_le next p.1 camera hin
            have hd1 := hnext.1
            exact ⟨hcheb, by omega⟩
        have hseenok : ((ChunkCoordinate.adjacent next).foldl
            (expandStep camera f) (rest, insert next seen)).2 ⊆ chebBox camera m := by
          intro c hc
          rcases expand_foldl_seen_bound camera f _ (rest, insert next seen) c hc with h | h
          · exact hseen' h
          · refine mem_chebBox.mpr ?_
            have hle := adjacent_cheb_le next c camera h
            have hd1 := hnext.1
            omega
        refine ih _ _ (acc ++ [next]) hstackok hseenok ?_
        have hcardfold := expand_foldl_card camera f (ChunkCoordinate.adjacent next)
          (rest, insert next seen)
        have hmono : (insert next seen).card
            ≤ ((ChunkCoordinate.adjacent next).foldl
                (expandStep camera f) (rest, insert next seen)).2.card :=
          Finset.card_le_card (expand_foldl_seen_mono camera f _ (rest, insert next seen))
        have hboxbound : ((ChunkCoordinate.adjacent next).foldl
            (expandStep camera f) (rest, insert next seen)).2.card
              ≤ (chebBox camera m).card :=
          Finset.card_le_card hseenok
        dsimp only at hcardfold
        simp only [List.length_cons] at hfuel
        omega

/-- The emitted list of the BFS loop only ever grows: everything in `acc`
is in the result. -/
theorem bfsLoop_acc_sub (camera : ChunkCoordinate) (f : Vec3 ℚ) (m : ℕ) :
    ∀ (fuel : ℕ) (stack : List (ChunkCoordinate × ℕ)) (seen : Finset ChunkCoordinate)
      (acc : List ChunkCoordinate) (c : ChunkCoordinate), c ∈ acc →
      c ∈ (bfsLoop camera f m fuel stack seen acc).1 := by
  intro fuel
  induction fuel with
  | zero => intro stack seen acc c hc; exact hc
  | succ fuel ih =>
    intro stack seen acc c hc
    cases stack with
    | nil => exact hc
    | cons hd rest =>
      obtain ⟨next, d⟩ := hd
      simp only [bfsLoop]
      by_cases hmd : m ≤ d
      · rw [if_pos hmd]
        exact ih _ _ _ c (List.mem_append_left _ hc)
      · rw [if_neg hmd]
        exact ih _ _ _ c (List.mem_append_left _ hc)

/-- If the BFS loop terminates with an empty leftover stack, every
coordinate on the stack is eventually emitted. -/
theorem bfsLoop_stack_to_acc (camera : ChunkCoordinate) (f : Vec3 ℚ) (m : ℕ) :
    ∀ (fuel : ℕ) (stack : List (ChunkCoordinate × ℕ)) (seen : Finset ChunkCoordinate)
      (acc : List ChunkCoordinate),
      (bfsLoop camera f m fuel stack seen acc).2 = [] →
      ∀ p ∈ stack, p.1 ∈ (bfsLoop camera f m fuel stack seen acc).1 := by
  intro fuel
  induction fuel with
  | zero =>
    intro stack seen acc hterm p hp
    have : stack = [] := hterm
    subst this
    exact absurd hp (List.not_mem_nil p)
  | succ fuel ih =>
    intro stack seen acc hterm p hp
    cases stack with
    | nil => exact absurd hp (List.not_mem_nil p)
    | cons hd rest =>
      obtain ⟨next, d⟩ := hd
      simp only [bfsLoop] at hterm ⊢
      by_cases hmd : m ≤ d
      · rw [if_pos hmd] at hterm ⊢
        rcases List.mem_cons.mp hp with heq | hmem
        · subst heq
          exact bfsLoop_acc_sub camera f m fuel _ _ _ next
            (List.mem_append_right _ (List.mem_singleton_self _))
        · exact ih _ _ _ hterm p hmem
      · rw [if_neg hmd] at hterm ⊢
        rcases List.mem_cons.mp hp with heq | hmem
        · subst heq
          exact bfsLoop_acc_sub camera f m fuel _ _ _ next
            (List.mem_append_right _ (List.mem_singleton_self _))
        · exact ih _ _ _ hterm p
            (expand_foldl_stack_mono camera f _ (rest, insert next seen) p hmem)

/-- Every coordinate the BFS loop emits is either the camera chunk (more
generally: was already on the stack or in the emitted list) or passed the
forward-direction guard when it was pushed. -/
theorem bfsLoop_guard_inv (camera : ChunkCoordinate) (f : Vec3 ℚ) (m : ℕ) :
    ∀ (fuel : ℕ) (stack : List (ChunkCoordinate × ℕ)) (seen : Finset ChunkCoordinate)
      (acc : List ChunkCoordinate),
      (∀ c ∈ acc, c = camera ∨ dotGuard f (chunk_centre c - chunk_centre camera)) →
      (∀ p ∈ stack, p.1 = camera ∨ dotGuard f (chunk_centre p.1 - chunk_centre camera)) →
      ∀ c ∈ (bfsLoop camera f m fuel stack seen acc).1,
        c = camera ∨ dotGuard f (chunk_centre c - chunk_centre camera) := by
  intro fuel
  induction fuel with
  | zero => intro stack seen acc hacc _ c hc; exact hacc c hc
  | succ fuel ih =>
    intro stack seen acc hacc hstack c hc
    cases stack with
    | nil => exact hacc c hc
    | cons hd rest =>
      obtain ⟨next, d⟩ := hd
      have hnext := hstack (next, d) (List.mem_cons_self _ _)
      have hacc' : ∀ c' ∈ acc ++ [next],
          c' = camera ∨ dotGuard f (chunk_centre c' - chunk_centre camera) := by
        intro c' hc'
        rcases List.mem_append.mp hc' with h | h
        · exact hacc c' h
        · simp only [List.mem_singleton] at h
          subst h
          exact hnext
      simp only [bfsLoop] at hc
      by_cases hmd : m ≤ d
      · rw [if_pos hmd] at hc
        exact ih _ _ _ hacc' (fun p hp => hstack p (List.mem_cons_of_mem _ hp)) c hc
      · rw [if_neg hmd] at hc
        refine ih _ _ _ hacc' ?_ c hc
        intro p hp
        rcases expand_foldl_new camera f _ (rest, insert next seen) p hp with
          hmem | ⟨_, _, _, hg⟩
        · exact hstack p (List.mem_cons_of_mem _ hmem)
        · exact Or.inr hg

/-- The BFS loop never emits a coordinate twice, given the stated stack
and seen-set invariants (which the initial state satisfies). -/
theorem bfsLoop_nodup (camera : ChunkCoordinate) (f : Vec3 ℚ) (m : ℕ) :
    ∀ (fuel : ℕ) (stack : List (ChunkCoordinate × ℕ)) (seen : Finset ChunkCoordinate)
      (acc : List ChunkCoordinate),
      acc.Nodup → (stack.map Prod.fst).Nodup →
      (∀ c ∈ acc, c ∈ seen) →
      (∀ p ∈ stack, p.1 ∉ acc) →
      ((∀ p ∈ stack, p.1 ∈ seen) ∨ stack.length ≤ 1) →
      ((bfsLoop camera f m fuel stack seen acc).1).Nodup := by
  intro fuel
  induction fuel with
  | zero => intro stack seen acc h1 _ _ _ _; exact h1
  | succ fuel ih =>
    intro stack seen acc h1 h2 h3 h4 h5
    cases stack with
    | nil => exact h1
    | cons hd rest =>
      obtain ⟨next, d⟩ := hd
      have hnextacc : next ∉ acc := h4 (next, d) (List.mem_cons_self _ _)
      have h1' : (acc ++ [next]).Nodup := by
        rw [List.nodup_append]
        refine ⟨h1, List.nodup_singleton _, ?_⟩
        intro a ha hb
        simp only [List.mem_singleton] at hb
        subst hb
        exact hnextacc ha
      have h2' : (rest.map Prod.fst).Nodup := (List.nodup_cons.mp (by simpa using h2)).2
      have hnextrest : next ∉ rest.map Prod.fst := (List.nodup_cons.mp (by simpa using h2)).1
      have h3' : ∀ c ∈ acc ++ [next], c ∈ insert next seen := by
        intro c hc
        rcases List.mem_append.mp hc with h | h
        · exact Finset.mem_insert_of_mem (h3 c h)
        · simp only [List.mem_singleton] at h
          subst h
          exact Finset.mem_insert_self _ _
      have h4' : ∀ p ∈ rest, p.1 ∉ acc ++ [next] := by
        intro p hp hmem
        rcases List.mem_append.mp hmem with h | h
        · exact h4 p (List.mem_cons_of_mem _ hp) h
        · simp only [List.mem_singleton] at h
          exact hnextrest (h ▸ List.mem_map_of_mem Prod.fst hp)
      have hrest_seen : ∀ p ∈ rest, p.1 ∈ insert next seen := by
        intro p hp
        rcases h5 with h | h
        · exact Finset.mem_insert_of_mem (h p (List.mem_cons_of_mem _ hp))
        · simp only [List.length_cons] at h
          have : rest = [] := List.length_eq_zero.mp (by omega)
          subst this
          exact absurd hp (List.not_mem_nil p)
      simp only [bfsLoop]
      by_cases hmd : m ≤ d
      · rw [if_pos hmd]
        exact ih _ _ _ h1' h2' h3' h4' (Or.inl hrest_seen)
      · rw [if_neg hmd]
        have hfold := expand_foldl_nodup camera f (ChunkCoordinate.adjacent next)
          (rest, insert next seen) h2' hrest_seen
        refine ih _ _ _ h1' hfold.1 ?_ ?_ (Or.inl hfold.2)
        · intro c hc
          exact expand_foldl_seen_mono camera f _ (rest, insert next seen) (h3' c hc)
        · intro p hp hmem
          rcases expand_foldl_new camera f _ (rest, insert next seen) p hp with
            h | ⟨_, _, hns, _⟩
          · exact h4' p h hmem
          · exact hns (h3' p.1 hmem)

/-- The exact-rational expansion guard `dotGuard` agrees with the literal
real-valued condition `camera_forward.dot(d.normalize()) > 0.5` of
`all_chunks`, for every nonzero direction vector. -/
theorem dotGuard_iff_real (f d : Vec3 ℚ) (hd : d ≠ ⟨0, 0, 0⟩) :
    ((1 : ℝ) / 2 < Vec3.dot (Vec3.toReal f) (normalize (Vec3.toReal d))
      ↔ dotGuard f d) := by
  have hs_pos : (0 : ℚ) < Vec3.dot d d := by
    obtain ⟨dx, dy, dz⟩ := d
    simp only [Vec3.dot]
    rcases lt_or_eq_of_le (add_nonneg (add_nonneg (mul_self_nonneg dx)
      (mul_self_nonneg dy)) (mul_self_nonneg dz)) with h | h
    · exact h
    · exfalso
      have hx : dx = 0 := by nlinarith [mul_self_nonneg dx, mul_self_nonneg dy, mul_self_nonneg dz]
      have hy : dy = 0 := by nlinarith [mul_self_nonneg dx, mul_self_nonneg dy, mul_self_nonneg dz]
      have hz : dz = 0 := by nlinarith [mul_self_nonneg dx, mul_self_nonneg dy, mul_self_nonneg dz]
      exact hd (by rw [hx, hy, hz])
  have hsR : Vec3.dot (Vec3.toReal d) (Vec3.toReal d) = ((Vec3.dot d d : ℚ) : ℝ) :=
    Ecs.dot_toReal d d
  have hsRpos : (0 : ℝ) < ((Vec3.dot d d : ℚ) : ℝ) := by exact_mod_cast hs_pos
  have htpos : (0 : ℝ) < Real.sqrt ((Vec3.dot d d : ℚ) : ℝ) := Real.sqrt_pos.mpr hsRpos
  have hdot : Vec3.dot (Vec3.toReal f) (normalize (Vec3.toReal d))
      = ((Vec3.dot f d : ℚ) : ℝ) / Real.sqrt ((Vec3.dot d d : ℚ) : ℝ) := by
    unfold normalize
    rw [hsR]
    simp only [Vec3.dot, Vec3.smul, Vec3.toReal]
    push_cast
    ring
  rw [hdot]
  unfold dotGuard Vec3.normSq
  constructor
  · intro h
    have h2 : Real.sqrt ((Vec3.dot d d : ℚ) : ℝ) < 2 * ((Vec3.dot f d : ℚ) : ℝ) := by
      rw [lt_div_iff₀ htpos] at h
      linarith
    have hDpos : (0 : ℝ) < ((Vec3.dot f d : ℚ) : ℝ) := by nlinarith
    have hsq := (Real.sqrt_lt' (by linarith)).mp h2
    constructor
    · exact_mod_cast hDpos
    · have : ((Vec3.dot d d : ℚ) : ℝ) < ((2 * Vec3.dot f d : ℚ) : ℝ) ^ 2 := by
        push_cast
        push_cast at hsq
        linarith
      exact_mod_cast this
  · rintro ⟨h1, h2⟩
    have hDpos : (0 : ℝ) < ((Vec3.dot f d : ℚ) : ℝ) := by exact_mod_cast h1
    have hsq : ((Vec3.dot d d : ℚ) : ℝ) < (2 * ((Vec3.dot f d : ℚ) : ℝ)) ^ 2 := by
      have : ((Vec3.dot d d : ℚ) : ℝ) < (((2 * Vec3.dot f d : ℚ)) : ℝ) ^ 2 := by
        exact_mod_cast h2
      push_cast at this
      linarith
    have h2' : Real.sqrt ((Vec3.dot d d : ℚ) : ℝ) < 2 * ((Vec3.dot f d : ℚ) : ℝ) :=
      (Real.sqrt_lt' (by linarith)).mpr hsq
    rw [lt_div_iff₀ htpos]
    linarith

/-- The BFS of `all_chunks` runs to completion within `bfsFuel` fuel: the
leftover stack is empty. -/
theorem all_chunksFull_snd_nil (w : World) (camera_pos camera_forward : Vec3 ℚ)
    (m : ℕ) : (all_chunksFull w camera_pos camera_forward m).2 = [] := by
  unfold all_chunksFull
  refine bfsLoop_stack_empty _ _ m (bfsFuel m) _ _ _ ?_ ?_ ?_
  · intro p hp
    simp only [List.mem_singleton] at hp
    subst hp
    dsimp only
    rw [chebDist_self]
    exact ⟨rfl, Nat.zero_le m⟩
  · exact Finset.empty_subset _
  · have hN := card_chebBox (cameraChunkOf w camera_pos) m
    unfold bfsFuel
    simp only [List.length_singleton, Finset.card_empty]
    omega

/-- The candidate list of `all_chunks` has no duplicates. -/
theorem all_chunks_nodup (w : World) (camera_pos camera_forward : Vec3 ℚ)
    (m : ℕ) : (all_chunks w camera_pos camera_forward m).Nodup := by
  unfold all_chunks all_chunksFull
  refine bfsLoop_nodup _ _ m (bfsFuel m) _ _ _ List.nodup_nil (by simp) ?_ ?_ ?_
  · intro c hc
    exact absurd hc (List.not_mem_nil c)
  · intro p _ hmem
    exact absurd hmem (List.not_mem_nil _)
  · right
    simp

/-- Unfolding the first BFS iteration of `all_chunks` when the radius is
positive: the camera chunk is emitted and its six neighbours are offered
to the expansion guard. -/
theorem all_chunksFull_step (w : World) (camera_pos camera_forward : Vec3 ℚ)
    (m : ℕ) (hm : 1 ≤ m) :
    all_chunksFull w camera_pos camera_forward m
      = bfsLoop (cameraChunkOf w camera_pos) camera_forward m (bfsFuel m - 1)
          ((ChunkCoordinate.adjacent (cameraChunkOf w camera_pos)).foldl
            (expandStep (cameraChunkOf w camera_pos) camera_forward)
            ([], insert (cameraChunkOf w camera_pos) ∅)).1
          ((ChunkCoordinate.adjacent (cameraChunkOf w camera_pos)).foldl
            (expandStep (cameraChunkOf w camera_pos) camera_forward)
            ([], insert (cameraChunkOf w camera_pos) ∅)).2
          [cameraChunkOf w camera_pos] := by
  unfold all_chunksFull
  rw [show bfsFuel m = (bfsFuel m - 1) + 1 from by unfold bfsFuel; omega]
  simp only [bfsLoop]
  rw [if_neg (by omega : ¬ m ≤ 0)]
  rfl

/-- C9: for every viewer position, forward vector and finite radius, the
candidate expansion of `all_chunks` terminates (the loop empties its
stack within the stated fuel), and the returned list of coordinates
contains no coordinate more than once (the visited set prevents any chunk
from being re-enqueued or re-emitted). -/
theorem claim_C9_terminates_and_nodup (w : World)
    (camera_pos camera_forward : Vec3 ℚ) (m : ℕ) :
    (all_chunksFull w camera_pos camera_forward m).2 = []
    ∧ (all_chunks w camera_pos camera_forward m).Nodup :=
  ⟨all_chunksFull_snd_nil w camera_pos camera_forward m,
   all_chunks_nodup w camera_pos camera_forward m⟩

/-- C1: for every viewer position, forward vector and radius, the
candidate set returned by `all_chunks` (i) contains the chunk containing
the viewer, (ii) contains — besides the viewer's chunk — only chunks
whose direction from the viewer's chunk passes the `dot > 0.5` forward
guard (in particular every neighbour is expanded only if it passes the
guard, satisfying the claimed "guard OR first ring" only-if condition,
and no chunk behind the viewer — non-positive dot — is ever returned),
and (iii) when the radius is at least 1, contains every face-neighbour of
the viewer's chunk that passes the forward guard (the forward-biased
cone's first ring). -/
theorem claim_C1_candidate_expansion (w : World)
    (camera_pos camera_forward : Vec3 ℚ) (m : ℕ) :
    cameraChunkOf w camera_pos ∈ all_chunks w camera_pos camera_forward m
    ∧ (∀ c ∈ all_chunks w camera_pos camera_forward m,
        c = cameraChunkOf w camera_pos
          ∨ dotGuard camera_forward
              (chunk_centre c - chunk_centre (cameraChunkOf w camera_pos)))
    ∧ (1 ≤ m → ∀ nb ∈ (cameraChunkOf w camera_pos).adjacent,
        dotGuard camera_forward
            (chunk_centre nb - chunk_centre (cameraChunkOf w camera_pos)) →
        nb ∈ all_chunks w camera_pos camera_forward m) := by
  refine ⟨?_, ?_, ?_⟩
  · unfold all_chunks all_chunksFull
    rw [show bfsFuel m = (bfsFuel m - 1) + 1 from by unfold bfsFuel; omega]
    simp only [bfsLoop]
    by_cases h0 : m ≤ 0
    · rw [if_pos h0]
      first
        | exact bfsLoop_acc_sub _ _ m _ _ _ _ _
            (List.mem_append_right _ (List.mem_singleton_self _))
        | simp
    · rw [if_neg h0]
      exact bfsLoop_acc_sub _ _ m _ _ _ _ _
        (List.mem_append_right _ (List.mem_singleton_self _))
  · intro c hc
    unfold all_chunks all_chunksFull at hc
    refine bfsLoop_guard_inv _ _ m (bfsFuel m) _ _ _ ?_ ?_ c hc
    · intro c' hc'
      exact absurd hc' (List.not_mem_nil c')
    · intro p hp
      simp only [List.mem_singleton] at hp
      subst hp
      exact Or.inl rfl
  · intro hm nb hnb hg
    have hterm := all_chunksFull_snd_nil w camera_pos camera_forward m
    have hstep := all_chunksFull_step w camera_pos camera_forward m hm
    rw [hstep] at hterm
    have hpush : (nb, chebDist nb (cameraChunkOf w camera_pos))
        ∈ ((ChunkCoordinate.adjacent (cameraChunkOf w camera_pos)).foldl
            (expandStep (cameraChunkOf w camera_pos) camera_forward)
            ([], insert (cameraChunkOf w camera_pos) ∅)).1 := by
      refine expand_foldl_pushes _ _ _ ([], insert (cameraChunkOf w camera_pos) ∅)
        nb (adjacent_nodup _) hnb ?_ hg
      simp only [Finset.mem_insert, Finset.not_mem_empty, or_false]
      exact adjacent_ne _ nb hnb
    have := bfsLoop_stack_to_acc (cameraChunkOf w camera_pos) camera_forward m
      (bfsFuel m - 1) _ _ [cameraChunkOf w camera_pos] hterm
      (nb, chebDist nb (cameraChunkOf w camera_pos)) hpush
    unfold all_chunks
    rw [hstep]
    exact this

/-- Witness for C1 at a concrete input: with the viewer at the origin
facing +x and radius 1, the origin chunk is in the candidate set, and the
+x face-neighbour (which passes the forward guard) is in the candidate
set. -/
theorem claim_C1_witness :
    cameraChunkOf emptyWorld ⟨0, 0, 0⟩ ∈ all_chunks emptyWorld ⟨0, 0, 0⟩ ⟨1, 0, 0⟩ 1
    ∧ (⟨1, 0, 0⟩ : ChunkCoordinate) ∈ all_chunks emptyWorld ⟨0, 0, 0⟩ ⟨1, 0, 0⟩ 1 := by
  have hcam : cameraChunkOf emptyWorld ⟨0, 0, 0⟩ = ⟨0, 0, 0⟩ := by
    unfold cameraChunkOf World.block_to_chunk_coordinate ratTrunc
    norm_num
  constructor
  · exact (claim_C1_candidate_expansion emptyWorld ⟨0, 0, 0⟩ ⟨1, 0, 0⟩ 1).1
  · refine (claim_C1_candidate_expansion emptyWorld ⟨0, 0, 0⟩ ⟨1, 0, 0⟩ 1).2.2
      (le_refl 1) ⟨1, 0, 0⟩ ?_ ?_
    · rw [hcam]
      simp only [ChunkCoordinate.adjacent, List.mem_cons, ChunkCoordinate.mk.injEq]
      norm_num
    · rw [hcam]
      unfold dotGuard chunk_centre Vec3.normSq
      simp only [Vec3.dot, vec3_sub_def]
      norm_num

end Chunks

end Rustcraft
